import Mathlib

/-!
Verification of the Gmail attachment downloader against its design
specification.  The Python sources (`gmail_utils.py`, `gmail_oauth.py`,
`app.py`) are shallowly embedded below: pure helpers become Lean functions
on `List Char` / `String`, and the network / filesystem effects of the
OAuth and download code are passed in explicitly as oracle parameters.
-/

set_option autoImplicit false
set_option maxRecDepth 8192

namespace GmailDL

/-! ## Embedding of `gmail_utils.clean_filename` (gmail_utils.py lines 8-27)

`clean_filename` runs, in order:
  1. `re.sub(r'[<>:"/\|?*]', '_', filename)` — note that inside the
     character class the backslash escapes the pipe, so the class matches
     exactly the eight characters `< > : " / | ? *` and NOT the backslash;
  2. `re.sub(r'\s+', ' ', filename)` — collapse each whitespace run to one
     space;
  3. `filename.strip()`;
  4. empty fallback to `'untitled'`;
  5. if longer than 255: `name, ext = os.path.splitext(filename)` and
     `filename = name[:255-len(ext)] + ext` (a Python slice, so a negative
     `255-len(ext)` counts from the end of `name`).
-/

/-- Character class of the regex `[<>:"/\|?*]` in `clean_filename`: the
backslash in the pattern escapes the `|`, so the matched set is these eight
characters (the backslash itself is not matched). -/
def isReservedChar (c : Char) : Bool :=
  c = '<' || c = '>' || c = ':' || c = '"' || c = '/' || c = '|' || c = '?' || c = '*'

/-- Python `\s` (and `str.strip`) whitespace over `str`: ASCII whitespace
plus the Unicode White_Space code points. -/
def isPySpace (c : Char) : Bool :=
  let n := c.val
  (9 ≤ n && n ≤ 13) || n == 32 || (28 ≤ n && n ≤ 31) || n == 133 ||
    n == 160 || n == 5760 || (8192 ≤ n && n ≤ 8202) || n == 8232 ||
    n == 8233 || n == 8239 || n == 8287 || n == 12288

/-- Step 1 of `clean_filename`: `re.sub(r'[<>:"/\|?*]', '_', filename)`. -/
def replaceReserved (l : List Char) : List Char :=
  l.map fun c => if isReservedChar c then '_' else c

/-- Step 2 of `clean_filename`: `re.sub(r'\s+', ' ', filename)` — each
maximal run of whitespace becomes a single space (emitted at the end of the
run). -/
def collapseWs : List Char → List Char
  | [] => []
  | [c] => if isPySpace c then [' '] else [c]
  | a :: b :: rest =>
    if isPySpace a then
      if isPySpace b then collapseWs (b :: rest)
      else ' ' :: collapseWs (b :: rest)
    else a :: collapseWs (b :: rest)

/-- Left part of `str.strip()`: drop leading whitespace. -/
def lstripWs (l : List Char) : List Char :=
  l.dropWhile isPySpace

/-- Right part of `str.strip()`: drop trailing whitespace. -/
def rstripWs : List Char → List Char
  | [] => []
  | c :: cs =>
    match rstripWs cs with
    | [] => if isPySpace c then [] else [c]
    | r :: rs => c :: r :: rs

/-- `str.strip()` on the character list. -/
def stripWs (l : List Char) : List Char :=
  rstripWs (lstripWs l)

/-- Index of the last occurrence of `c` in `l` (Python `str.rfind`,
returning `none` for `-1`). -/
def rfindIdx (c : Char) : List Char → Option Nat
  | [] => none
  | a :: l =>
    match rfindIdx c l with
    | some i => some (i + 1)
    | none => if a = c then some 0 else none

/-- POSIX `os.path.splitext`: split at the last `.` that lies strictly
after the last `/`, unless every character between them is a dot (leading
dot names such as `.bashrc` keep an empty extension). -/
def splitext (p : List Char) : List Char × List Char :=
  match rfindIdx '.' p with
  | none => (p, [])
  | some d =>
    match rfindIdx '/' p with
    | none =>
      if (p.take d).all (fun c => c = '.') then (p, [])
      else (p.take d, p.drop d)
    | some s =>
      if s < d then
        if ((p.drop (s + 1)).take (d - s - 1)).all (fun c => c = '.') then (p, [])
        else (p.take d, p.drop d)
      else (p, [])

/-- Python slice `l[:k]` with a possibly negative bound `k`. -/
def pySliceTo (k : Int) (l : List Char) : List Char :=
  if 0 ≤ k then l.take k.toNat else l.take (l.length - (-k).toNat)

/-- Step 4 of `clean_filename`: fall back to `'untitled'` when the cleaned
name is empty. -/
def untitledOf (l : List Char) : List Char :=
  if l.isEmpty then "untitled".data else l

/-- Step 5 of `clean_filename`: the length-limiting branch
`if len(filename) > 255: name, ext = os.path.splitext(filename);
filename = name[:255-len(ext)] + ext`. -/
def truncate255 (l : List Char) : List Char :=
  if 255 < l.length then
    let ne := splitext l
    pySliceTo ((255 : Int) - ne.2.length) ne.1 ++ ne.2
  else l

/-- `gmail_utils.clean_filename`: the early return for an empty input,
then the replace / collapse / strip / fallback / truncate pipeline. -/
def clean_filename (s : String) : String :=
  if s.data.isEmpty then "untitled"
  else String.mk (truncate255 (untitledOf (stripWs (collapseWs (replaceReserved s.data)))))

/-! ## Embedding of `gmail_utils.build_search_query` (gmail_utils.py lines 64-91)

Dates may arrive either as strings or as `datetime` objects; in the latter
case the source formats them with `strftime('%Y/%m/%d')`.  Python
truthiness (`if sender:`) makes both `None` and the empty string falsy,
while a `datetime` value is always truthy. -/

/-- A date criterion as the Python code receives it: either a plain string
or a `datetime` (kept as year / month / day). -/
inductive PyDateVal where
  | str (v : String)
  | dt (y m d : Nat)
deriving DecidableEq, Repr

/-- Python truthiness of an optional string argument. -/
def truthyStr : Option String → Bool
  | none => false
  | some v => !v.isEmpty

/-- Python truthiness of an optional date argument (`datetime` objects are
always truthy, strings are truthy when non-empty). -/
def truthyDate : Option PyDateVal → Bool
  | none => false
  | some (.str v) => !v.isEmpty
  | some (.dt _ _ _) => true

/-- Zero-padded decimal of width two, as `strftime` produces for `%m` and
`%d`. -/
def pad2 (n : Nat) : String :=
  if n < 10 then "0" ++ toString n else toString n

/-- Zero-padded decimal of width four, as `strftime` produces for `%Y`. -/
def pad4 (n : Nat) : String :=
  if n < 10 then "000" ++ toString n
  else if n < 100 then "00" ++ toString n
  else if n < 1000 then "0" ++ toString n
  else toString n

/-- The `isinstance(date, datetime)` normalization in
`build_search_query`: a `datetime` becomes `YYYY/MM/DD`, a string is used
as is. -/
def fmtDate : PyDateVal → String
  | .str v => v
  | .dt y m d => pad4 y ++ "/" ++ pad2 m ++ "/" ++ pad2 d

/-- `gmail_utils.build_search_query`: appends to `query_parts` in source
order (attachment flag, sender, subject, after, before, filename) and
space-joins. -/
def build_search_query (sender subject : Option String)
    (date_after date_before : Option PyDateVal)
    (has_attachment : Bool) (filename_contains : Option String) : String :=
  let qp : List String := []
  let qp := if has_attachment then qp ++ ["has:attachment"] else qp
  let qp := if truthyStr sender then qp ++ ["from:" ++ sender.getD ""] else qp
  let qp := if truthyStr subject then qp ++ ["subject:\"" ++ subject.getD "" ++ "\""] else qp
  let qp := if truthyDate date_after then
      qp ++ ["after:" ++ fmtDate ((date_after).getD (.str ""))] else qp
  let qp := if truthyDate date_before then
      qp ++ ["before:" ++ fmtDate ((date_before).getD (.str ""))] else qp
  let qp := if truthyStr filename_contains then
      qp ++ ["filename:" ++ filename_contains.getD ""] else qp
  String.intercalate " " qp

/-- Clause list in the order the specification fixes (attachment flag,
sender, subject quoted, after-date, before-date, filename); written from
the spec wording of section 4.3 to compare with the source translation. -/
def specQueryClauses (sender subject : Option String)
    (date_after date_before : Option PyDateVal)
    (has_attachment : Bool) (filename_contains : Option String) : List String :=
  (if has_attachment then ["has:attachment"] else []) ++
  (if truthyStr sender then ["from:" ++ sender.getD ""] else []) ++
  (if truthyStr subject then ["subject:\"" ++ subject.getD "" ++ "\""] else []) ++
  (if truthyDate date_after then ["after:" ++ fmtDate ((date_after).getD (.str ""))] else []) ++
  (if truthyDate date_before then ["before:" ++ fmtDate ((date_before).getD (.str ""))] else []) ++
  (if truthyStr filename_contains then ["filename:" ++ filename_contains.getD ""] else [])

/-! ## Embedding of `GmailAPI` operations (gmail_oauth.py)

Network calls are modelled as oracle arguments: an `Except HttpErr`
value stands for one provider call that either returned a payload or
raised `HttpError`. -/

/-- A `googleapiclient.errors.HttpError` raised by a provider call. -/
structure HttpErr where
  code : Nat
deriving DecidableEq, Repr

/-- One entry of the `messages` array returned by the provider list
endpoint. -/
structure MessageRef where
  id : String
deriving DecidableEq, Repr

/-- The JSON object returned by `users().messages().list(...)` — the
`messages` key may be absent, which `result.get('messages', [])` turns
into `[]`. -/
structure ListResult where
  messages : Option (List MessageRef)
deriving DecidableEq, Repr

/-- `GmailAPI.get_messages` (gmail_oauth.py lines 137-154): on a
successful provider call return `result.get('messages', [])`; on
`HttpError` the except-branch prints the error and returns `[]`. -/
def get_messages (call : Except HttpErr ListResult) : List MessageRef :=
  match call with
  | .ok result => result.messages.getD []
  | .error _ => []

/-- The `body` object of a message part: `size`, optional inline `data`,
optional `attachmentId`. -/
structure PartBody where
  size : Option Nat
  data : Option String
  attachmentId : Option String
deriving DecidableEq, Repr

/-- One message part as consumed by `_extract_attachment_info`: the
`filename` key may be absent (`part.get('filename')`). -/
structure MessagePart where
  filename : Option String
  mimeType : Option String
  body : PartBody
deriving DecidableEq, Repr

/-- The dictionary built by `_extract_attachment_info`: filename, MIME
type, declared size, and the `data` key, which is only set by the inline
branch or by a successful secondary fetch. -/
structure AttachmentInfo where
  filename : String
  mime_type : String
  size : Nat
  data : Option String
deriving DecidableEq, Repr

/-- `GmailAPI._extract_attachment_info` (gmail_oauth.py lines 192-222).
`fetch` is the `attachments().get` provider call, keyed by message id and
attachment id.  When the body has inline `data` it is used directly; when
it has an `attachmentId` the secondary fetch fills `data` (an `HttpError`
there returns `None`); when it has neither, the dictionary is returned
with no `data` key at all. -/
def extract_attachment_info (fetch : String → String → Except HttpErr String)
    (messageId : String) (part : MessagePart) : Option AttachmentInfo :=
  match part.filename with
  | none => none
  | some fn =>
    if fn.isEmpty then none
    else
      let base : AttachmentInfo :=
        { filename := fn
          mime_type := part.mimeType.getD "application/octet-stream"
          size := part.body.size.getD 0
          data := none }
      match part.body.data with
      | some d => some { base with data := some d }
      | none =>
        match part.body.attachmentId with
        | some aid =>
          match fetch messageId aid with
          | .ok d => some { base with data := some d }
          | .error _ => none
        | none => some base

/-- The `payload` of a fetched message: the payload object itself is a
part, and it optionally carries a `parts` array. -/
structure MessagePayload where
  self : MessagePart
  parts : Option (List MessagePart)
deriving DecidableEq, Repr

/-- `GmailAPI.get_attachments` (gmail_oauth.py lines 172-190): `msg` is
the result of `get_message_details` (`none` when that fetch failed).  The
loop keeps parts with a truthy `filename` and appends every non-`None`
result of `_extract_attachment_info`. -/
def get_attachments (fetch : String → String → Except HttpErr String)
    (messageId : String) (msg : Option MessagePayload) : List AttachmentInfo :=
  match msg with
  | none => []
  | some payload =>
    let parts := match payload.parts with
      | none => [payload.self]
      | some ps => ps
    parts.filterMap fun part =>
      if truthyStr part.filename then extract_attachment_info fetch messageId part
      else none

/-- `GmailAPI.download_attachment` (gmail_oauth.py lines 224-237).
`decode` models `base64.urlsafe_b64decode` (`none` when it raises) and
`write` models opening `save_path` and writing the bytes (`false` when the
write raises).  A missing `data` key raises `KeyError`; every exception is
caught and turned into `False`. -/
def download_attachment (decode : String → Option (List Nat))
    (write : String → List Nat → Bool)
    (a : AttachmentInfo) (save_path : String) : Bool :=
  match a.data with
  | none => false
  | some d =>
    match decode d with
    | none => false
    | some bytes => write save_path bytes

/-- Credential object held in `GmailAPI.creds`; only the refresh token
matters to `revoke_token`. -/
structure OAuthCreds where
  refresh_token : Option String
deriving DecidableEq, Repr

/-- The mutable fields of a `GmailAPI` instance that `revoke_token`
touches. -/
structure GmailState where
  creds : Option OAuthCreds
  service : Bool
deriving DecidableEq, Repr

/-- Outcome of the `requests.post` call to the revocation endpoint:
either an HTTP status code or a raised exception (network or otherwise). -/
inductive RevokeOutcome where
  | status (code : Nat)
  | exn
deriving DecidableEq, Repr

/-- `GmailAPI.revoke_token` (gmail_oauth.py lines 251-274): early `True`
with no provider call when there is no credential or no refresh token;
on status 200 or 400 clear `creds` and `service` and return `True`; on any
other status return `False` leaving the state untouched; on an exception
return `False` leaving the state untouched. -/
def revoke_token (st : GmailState) (resp : RevokeOutcome) : Bool × GmailState :=
  match st.creds with
  | none => (true, st)
  | some c =>
    match c.refresh_token with
    | none => (true, st)
    | some _ =>
      match resp with
      | .status code =>
        if code = 200 || code = 400 then
          (true, { st with creds := none, service := false })
        else (false, st)
      | .exn => (false, st)

/-! ## Embedding of the bulk-download loop of `gmail_connect`
(app.py lines 350-382)

For each attachment dictionary the loop sanitizes the filename, builds a
per-user save path (timestamped, so `timestamps` is the value of
`datetime.utcnow().strftime('%Y%m%d%H%M%S')` at each iteration), calls
`download_attachment`, and only on `True` constructs an `Attachment` row
and `db.session.add`s it, incrementing `downloaded_count`; on `False` it
appends to `errors` instead. -/

/-- Per-request context of the attachment loop: current user, headers of
the surrounding message, attachment folder, and the clock readings used
for the timestamped filenames (indexed by iteration). -/
structure DownloadCtx where
  user_id : Nat
  sender : String
  subject : String
  date_received : Option Nat
  attachment_folder : String
  timestamps : Nat → String

/-- `os.path.join(app.config['ATTACHMENT_FOLDER'], str(current_user.id))`. -/
def user_folder (ctx : DownloadCtx) : String :=
  ctx.attachment_folder ++ "/" ++ toString ctx.user_id

/-- The save path of the `i`-th attachment:
`os.path.join(user_folder, f-string of timestamp and cleaned filename)`. -/
def file_path (ctx : DownloadCtx) (i : Nat) (a : AttachmentInfo) : String :=
  user_folder ctx ++ "/" ++ ctx.timestamps i ++ "_" ++ clean_filename a.filename

/-- `os.path.splitext(filename)[1].lower().lstrip('.') or 'unknown'` used
for the `filetype` column. -/
def filetype_of (filename : String) : String :=
  let e := ((splitext filename.data).2.map Char.toLower).dropWhile (fun c => c = '.')
  if e.isEmpty then "unknown" else String.mk e

/-- The `Attachment` row handed to `db.session.add` (models.py fields set
by app.py lines 369-378). -/
structure AttachmentRecord where
  user_id : Nat
  email_from : String
  subject : String
  filename : String
  filepath : String
  filetype : String
  size : Nat
  date_received : Option Nat
deriving DecidableEq

/-- The row gmail_connect builds for the `i`-th attachment. -/
def mk_record (ctx : DownloadCtx) (i : Nat) (a : AttachmentInfo) : AttachmentRecord :=
  { user_id := ctx.user_id
    email_from := ctx.sender
    subject := ctx.subject
    filename := clean_filename a.filename
    filepath := file_path ctx i a
    filetype := filetype_of (clean_filename a.filename)
    size := a.size
    date_received := ctx.date_received }

/-- Accumulated effect of the attachment loop: rows passed to
`db.session.add`, the `downloaded_count` counter, and the `errors` list. -/
structure LoopResult where
  session_adds : List AttachmentRecord
  downloaded_count : Nat
  errors : List String
deriving DecidableEq

/-- The `for attachment_data in attachments:` loop of `gmail_connect`
(app.py lines 350-382), starting at iteration index `i`. -/
def process_attachments (decode : String → Option (List Nat))
    (write : String → List Nat → Bool) (ctx : DownloadCtx) :
    Nat → List AttachmentInfo → LoopResult
  | _, [] => { session_adds := [], downloaded_count := 0, errors := [] }
  | i, a :: rest =>
    let path := file_path ctx i a
    let res := process_attachments decode write ctx (i + 1) rest
    if download_attachment decode write a path then
      { session_adds := mk_record ctx i a :: res.session_adds
        downloaded_count := res.downloaded_count + 1
        errors := res.errors }
    else
      { res with errors := ("Failed to download: " ++ clean_filename a.filename) :: res.errors }

/-- The attachments of the loop paired with their iteration indices
(starting at `i`), for stating which iterations succeed. -/
def indexedFrom {α : Type} : Nat → List α → List (Nat × α)
  | _, [] => []
  | i, a :: rest => (i, a) :: indexedFrom (i + 1) rest

/-! ## Normal forms of sanitized names

A character list is in sanitized normal form when it holds none of the
eight replaced characters, every whitespace character in it is a plain
space, no two whitespace characters are adjacent, and it neither starts
nor ends with whitespace.  The fixed point lemmas below show that the
`clean_filename` pipeline leaves such lists unchanged. -/

/-- No character of the regex class `[<>:"/\|?*]` occurs. -/
def noRes (l : List Char) : Bool :=
  l.all fun c => !isReservedChar c

/-- Every whitespace character is the plain space. -/
def allWsSp (l : List Char) : Bool :=
  l.all fun c => !isPySpace c || c == ' '

/-- No two adjacent whitespace characters. -/
def noWsRun : List Char → Bool
  | [] => true
  | [_] => true
  | a :: b :: rest => !(isPySpace a && isPySpace b) && noWsRun (b :: rest)

/-- The first character, if any, is not whitespace. -/
def headNotWs : List Char → Bool
  | [] => true
  | c :: _ => !isPySpace c

/-- The last character, if any, is not whitespace. -/
def lastNotWs : List Char → Bool
  | [] => true
  | [c] => !isPySpace c
  | _ :: b :: rest => lastNotWs (b :: rest)

/-! ### Fixed point lemmas for the pipeline stages -/

theorem replaceReserved_fix : ∀ l : List Char, noRes l = true → replaceReserved l = l := by
  intro l
  induction l with
  | nil => exact fun _ => rfl
  | cons c cs ih =>
    intro h
    have h' : ((!isReservedChar c) && noRes cs) = true := h
    have hc : isReservedChar c = false :=
      by simpa using ((Bool.and_eq_true _ _).mp h').1
    have hcs := ih ((Bool.and_eq_true _ _).mp h').2
    show (if isReservedChar c then '_' else c) :: replaceReserved cs = c :: cs
    rw [hc, hcs]
    rfl

theorem collapseWs_fix : ∀ l : List Char,
    allWsSp l = true → noWsRun l = true → collapseWs l = l := by
  intro l
  induction l with
  | nil => exact fun _ _ => rfl
  | cons c cs ih =>
    intro h1 h2
    have h1' : ((!isPySpace c || c == ' ') && allWsSp cs) = true := h1
    have hcs : allWsSp cs = true := ((Bool.and_eq_true _ _).mp h1').2
    have hc : (!isPySpace c || c == ' ') = true := ((Bool.and_eq_true _ _).mp h1').1
    cases cs with
    | nil =>
      cases hsc : isPySpace c with
      | false => simp [collapseWs, hsc]
      | true =>
        have hceq : c = ' ' := by
          rcases (Bool.or_eq_true _ _).mp hc with h | h
          · rw [hsc] at h; exact absurd h (by decide)
          · exact eq_of_beq h
        subst hceq
        simp [collapseWs, hsc]
    | cons b rest =>
      have h2' : ((!(isPySpace c && isPySpace b)) && noWsRun (b :: rest)) = true := h2
      have hrun : noWsRun (b :: rest) = true := ((Bool.and_eq_true _ _).mp h2').2
      have hpair : isPySpace c = false ∨ isPySpace b = false := by
        simpa using ((Bool.and_eq_true _ _).mp h2').1
      have ihr : collapseWs (b :: rest) = b :: rest := ih hcs hrun
      cases hsc : isPySpace c with
      | false => simp [collapseWs, hsc, ihr]
      | true =>
        have hb : isPySpace b = false := by
          rcases hpair with h | h
          · rw [hsc] at h; cases h
          · exact h
        have hceq : c = ' ' := by
          rcases (Bool.or_eq_true _ _).mp hc with h | h
          · rw [hsc] at h; exact absurd h (by decide)
          · exact eq_of_beq h
        subst hceq
        simp [collapseWs, hsc, hb, ihr]

theorem lstripWs_fix (l : List Char) (h : headNotWs l = true) : lstripWs l = l := by
  cases l with
  | nil => rfl
  | cons c cs =>
    have h' : (!isPySpace c) = true := h
    have hc : isPySpace c = false := by simpa using h'
    simp [lstripWs, List.dropWhile, hc]

theorem rstripWs_fix : ∀ l : List Char, lastNotWs l = true → rstripWs l = l := by
  intro l
  induction l with
  | nil => exact fun _ => rfl
  | cons c cs ih =>
    intro h
    cases cs with
    | nil =>
      have h' : (!isPySpace c) = true := h
      have hc : isPySpace c = false := by simpa using h'
      simp [rstripWs, hc]
    | cons b rest =>
      have hr : rstripWs (b :: rest) = b :: rest := ih h
      have e : rstripWs (c :: b :: rest) =
          match rstripWs (b :: rest) with
          | [] => if isPySpace c then [] else [c]
          | r :: rs => c :: r :: rs := rfl
      rw [e, hr]

/-! ### Each pipeline stage establishes or keeps the normal form -/

theorem all_of_forall_mem {f : Char → Bool} {m l : List Char}
    (hsub : ∀ c, c ∈ m → c ∈ l) (h : l.all f = true) : m.all f = true := by
  rw [List.all_eq_true] at h ⊢
  exact fun c hc => h c (hsub c hc)

theorem noRes_replaceReserved (l : List Char) : noRes (replaceReserved l) = true := by
  induction l with
  | nil => rfl
  | cons c cs ih =>
    show ((!isReservedChar (if isReservedChar c then '_' else c)) && noRes (replaceReserved cs)) = true
    rw [Bool.and_eq_true]
    refine ⟨?_, ih⟩
    cases hc : isReservedChar c with
    | false => simp [hc]
    | true => simp [hc]; rfl

theorem mem_collapseWs : ∀ l : List Char, ∀ c, c ∈ collapseWs l →
    c = ' ' ∨ (c ∈ l ∧ isPySpace c = false) := by
  intro l
  induction l with
  | nil => intro c hc; cases hc
  | cons a cs ih =>
    intro c hc
    cases cs with
    | nil =>
      cases hsa : isPySpace a with
      | false =>
        rw [show collapseWs [a] = [a] by simp [collapseWs, hsa]] at hc
        rcases List.mem_singleton.mp hc with h
        exact Or.inr ⟨h ▸ List.mem_singleton.mpr rfl, h ▸ hsa⟩
      | true =>
        rw [show collapseWs [a] = [' '] by simp [collapseWs, hsa]] at hc
        exact Or.inl (List.mem_singleton.mp hc)
    | cons b rest =>
      cases hsa : isPySpace a with
      | false =>
        rw [show collapseWs (a :: b :: rest) = a :: collapseWs (b :: rest) by
          simp [collapseWs, hsa]] at hc
        rcases List.mem_cons.mp hc with h | h
        · exact Or.inr ⟨h ▸ List.mem_cons_self a _, h ▸ hsa⟩
        · rcases ih c h with h2 | h2
          · exact Or.inl h2
          · exact Or.inr ⟨List.mem_cons_of_mem a h2.1, h2.2⟩
      | true =>
        cases hsb : isPySpace b with
        | true =>
          rw [show collapseWs (a :: b :: rest) = collapseWs (b :: rest) by
            simp [collapseWs, hsa, hsb]] at hc
          rcases ih c hc with h2 | h2
          · exact Or.inl h2
          · exact Or.inr ⟨List.mem_cons_of_mem a h2.1, h2.2⟩
        | false =>
          rw [show collapseWs (a :: b :: rest) = ' ' :: collapseWs (b :: rest) by
            simp [collapseWs, hsa, hsb]] at hc
          rcases List.mem_cons.mp hc with h | h
          · exact Or.inl h
          · rcases ih c h with h2 | h2
            · exact Or.inl h2
            · exact Or.inr ⟨List.mem_cons_of_mem a h2.1, h2.2⟩

theorem noRes_collapseWs {l : List Char} (h : noRes l = true) :
    noRes (collapseWs l) = true := by
  rw [noRes, List.all_eq_true]
  intro c hc
  rcases mem_collapseWs l c hc with h2 | h2
  · subst h2; decide
  · exact (List.all_eq_true.mp h) c h2.1

theorem allWsSp_collapseWs (l : List Char) : allWsSp (collapseWs l) = true := by
  rw [allWsSp, List.all_eq_true]
  intro c hc
  rcases mem_collapseWs l c hc with h2 | h2
  · subst h2; decide
  · simp [h2.2]

theorem collapseWs_head : ∀ (rest : List Char) (b : Char),
    ∃ t, collapseWs (b :: rest) = (if isPySpace b then ' ' else b) :: t := by
  intro rest
  induction rest with
  | nil =>
    intro b
    cases hsb : isPySpace b with
    | false => exact ⟨[], by simp [collapseWs, hsb]⟩
    | true => exact ⟨[], by simp [collapseWs, hsb]⟩
  | cons r rs ih =>
    intro b
    cases hsb : isPySpace b with
    | false => exact ⟨collapseWs (r :: rs), by simp [collapseWs, hsb]⟩
    | true =>
      cases hsr : isPySpace r with
      | false => exact ⟨collapseWs (r :: rs), by simp [collapseWs, hsb, hsr]⟩
      | true =>
        obtain ⟨t, ht⟩ := ih r
        rw [hsr] at ht
        refine ⟨t, ?_⟩
        rw [show collapseWs (b :: r :: rs) = collapseWs (r :: rs) by
          simp [collapseWs, hsb, hsr], ht]
        simp

theorem noWsRun_collapseWs : ∀ l : List Char, noWsRun (collapseWs l) = true := by
  intro l
  induction l with
  | nil => rfl
  | cons a cs ih =>
    cases cs with
    | nil =>
      cases hsa : isPySpace a with
      | false => simp [collapseWs, hsa, noWsRun]
      | true => simp [collapseWs, hsa, noWsRun]
    | cons b rest =>
      cases hsa : isPySpace a with
      | true =>
        cases hsb : isPySpace b with
        | true =>
          rw [show collapseWs (a :: b :: rest) = collapseWs (b :: rest) by
            simp [collapseWs, hsa, hsb]]
          exact ih
        | false =>
          rw [show collapseWs (a :: b :: rest) = ' ' :: collapseWs (b :: rest) by
            simp [collapseWs, hsa, hsb]]
          obtain ⟨t, ht⟩ := collapseWs_head rest b
          rw [hsb] at ht
          rw [ht]
          show (!(isPySpace ' ' && isPySpace b) && noWsRun (b :: t)) = true
          rw [Bool.and_eq_true]
          refine ⟨by simp [hsb], ?_⟩
          rw [ht] at ih
          exact ih
      | false =>
        rw [show collapseWs (a :: b :: rest) = a :: collapseWs (b :: rest) by
          simp [collapseWs, hsa]]
        obtain ⟨t, ht⟩ := collapseWs_head rest b
        rw [ht]
        show (!(isPySpace a && isPySpace (if isPySpace b then ' ' else b)) &&
          noWsRun ((if isPySpace b then ' ' else b) :: t)) = true
        rw [Bool.and_eq_true]
        refine ⟨by simp [hsa], ?_⟩
        rw [ht] at ih
        exact ih

theorem noWsRun_tail : ∀ (a : Char) (l : List Char), noWsRun (a :: l) = true → noWsRun l = true := by
  intro a l h
  cases l with
  | nil => rfl
  | cons b rest =>
    have h' : ((!(isPySpace a && isPySpace b)) && noWsRun (b :: rest)) = true := h
    exact ((Bool.and_eq_true _ _).mp h').2

theorem mem_lstripWs : ∀ l : List Char, ∀ c, c ∈ lstripWs l → c ∈ l := by
  intro l
  induction l with
  | nil => intro c hc; cases hc
  | cons a cs ih =>
    intro c hc
    cases hsa : isPySpace a with
    | true =>
      rw [show lstripWs (a :: cs) = lstripWs cs by simp [lstripWs, List.dropWhile, hsa]] at hc
      exact List.mem_cons_of_mem a (ih c hc)
    | false =>
      rw [show lstripWs (a :: cs) = a :: cs by simp [lstripWs, List.dropWhile, hsa]] at hc
      exact hc

theorem headNotWs_lstripWs : ∀ l : List Char, headNotWs (lstripWs l) = true := by
  intro l
  induction l with
  | nil => rfl
  | cons a cs ih =>
    cases hsa : isPySpace a with
    | true => rw [show lstripWs (a :: cs) = lstripWs cs by simp [lstripWs, List.dropWhile, hsa]]; exact ih
    | false =>
      rw [show lstripWs (a :: cs) = a :: cs by simp [lstripWs, List.dropWhile, hsa]]
      show (!isPySpace a) = true
      simp [hsa]

theorem noWsRun_lstripWs : ∀ l : List Char, noWsRun l = true → noWsRun (lstripWs l) = true := by
  intro l
  induction l with
  | nil => exact fun _ => rfl
  | cons a cs ih =>
    intro h
    cases hsa : isPySpace a with
    | true =>
      rw [show lstripWs (a :: cs) = lstripWs cs by simp [lstripWs, List.dropWhile, hsa]]
      exact ih (noWsRun_tail a cs h)
    | false =>
      rw [show lstripWs (a :: cs) = a :: cs by simp [lstripWs, List.dropWhile, hsa]]
      exact h

theorem mem_rstripWs : ∀ l : List Char, ∀ c, c ∈ rstripWs l → c ∈ l := by
  intro l
  induction l with
  | nil => intro c hc; cases hc
  | cons a cs ih =>
    intro c hc
    have e : rstripWs (a :: cs) =
        match rstripWs cs with
        | [] => if isPySpace a then [] else [a]
        | r :: rs => a :: r :: rs := rfl
    cases he : rstripWs cs with
    | nil =>
      rw [e, he] at hc
      cases hsa : isPySpace a with
      | true => rw [hsa] at hc; simp at hc
      | false =>
        rw [hsa] at hc
        simp only [if_false] at hc
        rcases List.mem_singleton.mp hc with h
        exact h ▸ List.mem_cons_self a cs
    | cons r rs =>
      rw [e, he] at hc
      rcases List.mem_cons.mp hc with h | h
      · exact h ▸ List.mem_cons_self a cs
      · exact List.mem_cons_of_mem a (ih c (he ▸ h))

theorem headNotWs_rstripWs : ∀ l : List Char, headNotWs l = true → headNotWs (rstripWs l) = true := by
  intro l h
  cases l with
  | nil => rfl
  | cons a cs =>
    have e : rstripWs (a :: cs) =
        match rstripWs cs with
        | [] => if isPySpace a then [] else [a]
        | r :: rs => a :: r :: rs := rfl
    cases he : rstripWs cs with
    | nil =>
      rw [e, he]
      cases hsa : isPySpace a with
      | true => rfl
      | false => exact h
    | cons r rs => rw [e, he]; exact h

theorem rstripWs_headEq : ∀ (l : List Char) (r : Char) (rs : List Char),
    rstripWs l = r :: rs → l.head? = some r := by
  intro l r rs h
  cases l with
  | nil => cases h
  | cons a cs =>
    have e : rstripWs (a :: cs) =
        match rstripWs cs with
        | [] => if isPySpace a then [] else [a]
        | r :: rs => a :: r :: rs := rfl
    cases he : rstripWs cs with
    | nil =>
      rw [e, he] at h
      cases hsa : isPySpace a with
      | true => rw [hsa] at h; cases h
      | false =>
        rw [hsa] at h
        have h2 : [a] = r :: rs := by simpa using h
        rw [((List.cons.injEq _ _ _ _).mp h2).1]
        rfl
    | cons q qs =>
      rw [e, he] at h
      rw [(List.cons.injEq _ _ _ _).mp h |>.1]
      rfl

theorem noWsRun_rstripWs : ∀ l : List Char, noWsRun l = true → noWsRun (rstripWs l) = true := by
  intro l
  induction l with
  | nil => exact fun _ => rfl
  | cons a cs ih =>
    intro h
    have e : rstripWs (a :: cs) =
        match rstripWs cs with
        | [] => if isPySpace a then [] else [a]
        | r :: rs => a :: r :: rs := rfl
    cases he : rstripWs cs with
    | nil =>
      rw [e, he]
      cases hsa : isPySpace a with
      | true => rfl
      | false => rfl
    | cons r rs =>
      rw [e, he]
      have hcs : cs.head? = some r := rstripWs_headEq cs r rs he
      cases cs with
      | nil => cases hcs
      | cons b rest =>
        have hb : b = r := by
          have : some b = some r := hcs
          exact Option.some.inj this
        subst hb
        have h' : ((!(isPySpace a && isPySpace b)) && noWsRun (b :: rest)) = true := h
        show ((!(isPySpace a && isPySpace b)) && noWsRun (b :: rs)) = true
        rw [Bool.and_eq_true]
        refine ⟨((Bool.and_eq_true _ _).mp h').1, ?_⟩
        have := ih (noWsRun_tail a (b :: rest) h)
        rw [he] at this
        exact this

theorem untitled_props : noRes "untitled".data = true ∧ allWsSp "untitled".data = true ∧
    noWsRun "untitled".data = true ∧ headNotWs "untitled".data = true ∧
    "untitled".data ≠ [] := by
  refine ⟨by decide, by decide, by decide, by decide, by decide⟩

theorem pass1_props (x : List Char) :
    noRes (untitledOf (stripWs (collapseWs (replaceReserved x)))) = true ∧
    allWsSp (untitledOf (stripWs (collapseWs (replaceReserved x)))) = true ∧
    noWsRun (untitledOf (stripWs (collapseWs (replaceReserved x)))) = true ∧
    headNotWs (untitledOf (stripWs (collapseWs (replaceReserved x)))) = true ∧
    untitledOf (stripWs (collapseWs (replaceReserved x))) ≠ [] := by
  have h1 : noRes (replaceReserved x) = true := noRes_replaceReserved x
  have h2 : noRes (collapseWs (replaceReserved x)) = true := noRes_collapseWs h1
  have h3 : allWsSp (collapseWs (replaceReserved x)) = true := allWsSp_collapseWs _
  have h4 : noWsRun (collapseWs (replaceReserved x)) = true := noWsRun_collapseWs _
  set l2 := collapseWs (replaceReserved x) with hl2
  have h5 : noRes (lstripWs l2) = true := all_of_forall_mem (mem_lstripWs l2) h2
  have h6 : allWsSp (lstripWs l2) = true := all_of_forall_mem (mem_lstripWs l2) h3
  have h7 : noWsRun (lstripWs l2) = true := noWsRun_lstripWs l2 h4
  have h8 : headNotWs (lstripWs l2) = true := headNotWs_lstripWs l2
  set l3 := lstripWs l2 with hl3
  have h9 : noRes (rstripWs l3) = true := all_of_forall_mem (mem_rstripWs l3) h5
  have h10 : allWsSp (rstripWs l3) = true := all_of_forall_mem (mem_rstripWs l3) h6
  have h11 : noWsRun (rstripWs l3) = true := noWsRun_rstripWs l3 h7
  have h12 : headNotWs (rstripWs l3) = true := headNotWs_rstripWs l3 h8
  have hstrip : stripWs l2 = rstripWs l3 := rfl
  rw [hstrip]
  set l4 := rstripWs l3 with hl4
  cases hl : l4 with
  | nil =>
    rw [show untitledOf [] = "untitled".data by rfl]
    exact untitled_props
  | cons a t =>
    rw [show untitledOf (a :: t) = a :: t by rfl]
    rw [hl] at h9 h10 h11 h12
    exact ⟨h9, h10, h11, h12, by simp⟩

/-! ### The truncation step preserves the normal form -/

theorem allB_take (f : Char → Bool) : ∀ (l : List Char) (n : Nat),
    l.all f = true → (l.take n).all f = true := by
  intro l
  induction l with
  | nil => intro n _; simp
  | cons a cs ih =>
    intro n h
    have h' : (f a && cs.all f) = true := h
    cases n with
    | zero => rfl
    | succ n =>
      rw [List.take_succ_cons]
      show (f a && (cs.take n).all f) = true
      rw [Bool.and_eq_true]
      exact ⟨((Bool.and_eq_true _ _).mp h').1, ih n ((Bool.and_eq_true _ _).mp h').2⟩

theorem allB_drop (f : Char → Bool) : ∀ (l : List Char) (n : Nat),
    l.all f = true → (l.drop n).all f = true := by
  intro l
  induction l with
  | nil => intro n _; simp
  | cons a cs ih =>
    intro n h
    have h' : (f a && cs.all f) = true := h
    cases n with
    | zero => exact h
    | succ n =>
      rw [List.drop_succ_cons]
      exact ih n ((Bool.and_eq_true _ _).mp h').2

theorem noWsRun_take : ∀ (l : List Char) (n : Nat),
    noWsRun l = true → noWsRun (l.take n) = true := by
  intro l
  induction l with
  | nil => intro n _; simp; rfl
  | cons c cs ih =>
    intro n h
    cases n with
    | zero => rfl
    | succ n =>
      cases cs with
      | nil => simpa using h
      | cons b rest =>
        have h' : ((!(isPySpace c && isPySpace b)) && noWsRun (b :: rest)) = true := h
        cases n with
        | zero => rfl
        | succ m =>
          rw [List.take_succ_cons, List.take_succ_cons]
          show ((!(isPySpace c && isPySpace b)) && noWsRun (b :: rest.take m)) = true
          rw [Bool.and_eq_true]
          refine ⟨((Bool.and_eq_true _ _).mp h').1, ?_⟩
          have := ih (m + 1) ((Bool.and_eq_true _ _).mp h').2
          rw [List.take_succ_cons] at this
          exact this

theorem noWsRun_drop : ∀ (n : Nat) (l : List Char),
    noWsRun l = true → noWsRun (l.drop n) = true := by
  intro n
  induction n with
  | zero => exact fun l h => h
  | succ m ih =>
    intro l h
    cases l with
    | nil => rfl
    | cons c cs =>
      rw [List.drop_succ_cons]
      exact ih cs (noWsRun_tail c cs h)

theorem noWsRun_append : ∀ (l1 l2 : List Char),
    noWsRun l1 = true → noWsRun l2 = true →
    (∀ c, l2.head? = some c → isPySpace c = false) →
    noWsRun (l1 ++ l2) = true := by
  intro l1
  induction l1 with
  | nil => intro l2 _ h2 _; simpa using h2
  | cons a cs ih =>
    intro l2 h1 h2 hh
    cases cs with
    | nil =>
      cases l2 with
      | nil => simpa using h1
      | cons c2 t2 =>
        have hc2 : isPySpace c2 = false := hh c2 rfl
        show ((!(isPySpace a && isPySpace c2)) && noWsRun (c2 :: t2)) = true
        rw [Bool.and_eq_true]
        exact ⟨by simp [hc2], h2⟩
    | cons b rest =>
      have h1' : ((!(isPySpace a && isPySpace b)) && noWsRun (b :: rest)) = true := h1
      have ihr := ih l2 ((Bool.and_eq_true _ _).mp h1').2 h2 hh
      show ((!(isPySpace a && isPySpace b)) && noWsRun (b :: (rest ++ l2))) = true
      rw [Bool.and_eq_true]
      exact ⟨((Bool.and_eq_true _ _).mp h1').1, ihr⟩

theorem headNotWs_take (l : List Char) (n : Nat) (h : headNotWs l = true) :
    headNotWs (l.take n) = true := by
  cases l with
  | nil => simp; rfl
  | cons a cs =>
    cases n with
    | zero => rfl
    | succ n => rw [List.take_succ_cons]; exact h

theorem headNotWs_append (l1 l2 : List Char) (h1 : headNotWs l1 = true)
    (h2 : headNotWs l2 = true) : headNotWs (l1 ++ l2) = true := by
  cases l1 with
  | nil => simpa using h2
  | cons a cs => exact h1

theorem rfindIdx_head : ∀ (c : Char) (l : List Char) (i : Nat),
    rfindIdx c l = some i → (l.drop i).head? = some c := by
  intro c l
  induction l with
  | nil => intro i h; cases h
  | cons a cs ih =>
    intro i h
    have e : rfindIdx c (a :: cs) =
        match rfindIdx c cs with
        | some j => some (j + 1)
        | none => if a = c then some 0 else none := rfl
    cases he : rfindIdx c cs with
    | some j =>
      rw [e, he] at h
      have hi : i = j + 1 := (Option.some.inj h).symm
      subst hi
      rw [List.drop_succ_cons]
      exact ih j he
    | none =>
      rw [e, he] at h
      by_cases hac : a = c
      · rw [if_pos hac] at h
        have hi : i = 0 := (Option.some.inj h).symm
        subst hi
        rw [List.drop_zero]
        rw [hac]
        rfl
      · rw [if_neg hac] at h
        cases h

theorem pySliceTo_eq_take (k : Int) (l : List Char) : ∃ m, pySliceTo k l = l.take m := by
  unfold pySliceTo
  by_cases h : 0 ≤ k
  · exact ⟨k.toNat, by rw [if_pos h]⟩
  · exact ⟨l.length - (-k).toNat, by rw [if_neg h]⟩

theorem splitext_cases (p : List Char) :
    splitext p = (p, []) ∨
    ∃ d, splitext p = (p.take d, p.drop d) ∧ (p.drop d).head? = some '.' := by
  cases hd : rfindIdx '.' p with
  | none =>
    left
    simp only [splitext, hd]
  | some d =>
    have hdh := rfindIdx_head '.' p d hd
    cases hs : rfindIdx '/' p with
    | none =>
      by_cases hall : ((p.take d).all (fun c => c = '.')) = true
      · left
        simp only [splitext, hd, hs]
        rw [if_pos hall]
      · right
        refine ⟨d, ?_, hdh⟩
        simp only [splitext, hd, hs]
        rw [if_neg hall]
    | some s =>
      by_cases hsd : s < d
      · by_cases hall : (((p.drop (s + 1)).take (d - s - 1)).all (fun c => c = '.')) = true
        · left
          simp only [splitext, hd, hs]
          rw [if_pos hsd, if_pos hall]
        · right
          refine ⟨d, ?_, hdh⟩
          simp only [splitext, hd, hs]
          rw [if_pos hsd, if_neg hall]
      · left
        simp only [splitext, hd, hs]
        rw [if_neg hsd]

theorem truncate255_shape (p : List Char) (hp : p ≠ []) :
    ∃ k d, truncate255 p = p.take k ++ p.drop d ∧
      ((p.drop d).head? = some '.' ∨ p.drop d = []) ∧ truncate255 p ≠ [] := by
  by_cases hlen : 255 < p.length
  · have e : truncate255 p =
        pySliceTo ((255 : Int) - ((splitext p).2.length : Int)) (splitext p).1 ++
          (splitext p).2 := by
      unfold truncate255
      rw [if_pos hlen]
    rcases splitext_cases p with hse | ⟨d, hse, hdh⟩
    · rw [hse] at e
      dsimp only at e
      rw [List.length_nil] at e
      norm_num at e
      rw [show pySliceTo 255 p = p.take 255 by
        unfold pySliceTo; rw [if_pos (by decide)]; rfl] at e
      have hlt : (p.take 255).length = 255 := by
        rw [List.length_take]
        exact Nat.min_eq_left (Nat.le_of_lt hlen)
      refine ⟨255, p.length, ?_, Or.inr (List.drop_length p), ?_⟩
      · rw [e, List.drop_length, List.append_nil]
      · rw [e]
        intro hcon
        rw [hcon] at hlt
        simp at hlt
    · obtain ⟨m, hm⟩ := pySliceTo_eq_take ((255 : Int) - ((p.drop d).length : Int)) (p.take d)
      rw [hse] at e
      dsimp only at e
      rw [hm, List.take_take] at e
      have hdne : p.drop d ≠ [] := by
        intro hcon
        rw [hcon] at hdh
        cases hdh
      refine ⟨min m d, d, e, Or.inl hdh, ?_⟩
      rw [e]
      intro hcon
      exact hdne ((List.append_eq_nil.mp hcon).2)
  · refine ⟨p.length, p.length, ?_, Or.inr (List.drop_length p), ?_⟩
    · unfold truncate255
      rw [if_neg hlen, List.take_length, List.drop_length, List.append_nil]
    · unfold truncate255
      rw [if_neg hlen]
      exact hp

theorem truncate255_props (p : List Char) (h1 : noRes p = true) (h2 : allWsSp p = true)
    (h3 : noWsRun p = true) (h4 : headNotWs p = true) (hp : p ≠ []) :
    noRes (truncate255 p) = true ∧ allWsSp (truncate255 p) = true ∧
    noWsRun (truncate255 p) = true ∧ headNotWs (truncate255 p) = true ∧
    truncate255 p ≠ [] := by
  obtain ⟨k, d, he, hh, hne⟩ := truncate255_shape p hp
  have hdropHead : ∀ c, (p.drop d).head? = some c → isPySpace c = false := by
    intro c hc
    rcases hh with hdot | hemp
    · rw [hdot] at hc
      rw [← Option.some.inj hc]
      decide
    · rw [hemp] at hc
      cases hc
  refine ⟨?_, ?_, ?_, ?_, hne⟩
  · rw [he, noRes, List.all_append, Bool.and_eq_true]
    exact ⟨allB_take _ p k h1, allB_drop _ p d h1⟩
  · rw [he, allWsSp, List.all_append, Bool.and_eq_true]
    exact ⟨allB_take _ p k h2, allB_drop _ p d h2⟩
  · rw [he]
    exact noWsRun_append (p.take k) (p.drop d) (noWsRun_take p k h3)
      (noWsRun_drop d p h3) hdropHead
  · rw [he]
    refine headNotWs_append (p.take k) (p.drop d) (headNotWs_take p k h4) ?_
    cases hpd : p.drop d with
    | nil => rfl
    | cons a t =>
      have : isPySpace a = false := by
        apply hdropHead
        rw [hpd]
        rfl
      show (!isPySpace a) = true
      simp [this]

theorem pipeline_fix (q : List Char) (h1 : noRes q = true) (h2 : allWsSp q = true)
    (h3 : noWsRun q = true) (h4 : headNotWs q = true) (h5 : lastNotWs q = true)
    (h6 : q ≠ []) (h7 : q.length ≤ 255) :
    truncate255 (untitledOf (stripWs (collapseWs (replaceReserved q)))) = q := by
  rw [replaceReserved_fix q h1, collapseWs_fix q h2 h3]
  rw [show stripWs q = rstripWs (lstripWs q) from rfl, lstripWs_fix q h4, rstripWs_fix q h5]
  have hu : untitledOf q = q := by
    cases q with
    | nil => exact absurd rfl h6
    | cons a t => rfl
  rw [hu]
  unfold truncate255
  rw [if_neg (by omega)]

theorem clean_filename_eq (s : String) (hs : s.data ≠ []) :
    clean_filename s =
      String.mk (truncate255 (untitledOf (stripWs (collapseWs (replaceReserved s.data))))) := by
  unfold clean_filename
  rw [if_neg ?_]
  intro hcon
  cases he : s.data with
  | nil => exact hs he
  | cons a t => rw [he] at hcon; cases hcon

/-! ## Claim theorems -/

/-- C1: the claim says every occurrence of each of the nine characters
`< > : " / \\ | ? *` is replaced by an underscore.  The regex character
class escapes the pipe, not the backslash, so a backslash survives
sanitization unchanged: `clean_filename` maps the three-character name
`a\\b` to itself, and the output still contains a backslash. -/
theorem c1_backslash_survives_sanitizer :
    clean_filename "a\\b" = "a\\b" ∧ '\\' ∈ (clean_filename "a\\b").data := by
  exact ⟨by decide, by decide⟩

/-- C2: the claim says a part whose body has neither inline data nor an
attachment id never produces a yielded descriptor.  Evaluating the
extractor on exactly such a part shows the descriptor is yielded anyway,
with no payload (`data = none`) and no reference field at all. -/
theorem c2_payloadless_part_is_yielded :
    get_attachments (fun _ _ => .error ⟨500⟩) "m1"
        (some { self := { filename := none, mimeType := none, body := ⟨none, none, none⟩ }
                parts := some [{ filename := some "report.pdf"
                                 mimeType := some "application/pdf"
                                 body := { size := some 12, data := none, attachmentId := none } }] })
      = [{ filename := "report.pdf", mime_type := "application/pdf", size := 12, data := none }] := by
  rfl

/-- C3 (counterexample): the claim says provider failure returns an empty
sequence together with a distinct SearchFailed signal, distinguishable
from a zero-match success.  In the code both produce the bare empty list:
the failure result is equal to the zero-match success result. -/
theorem c3_failure_indistinguishable_from_zero_matches :
    get_messages (.error ⟨503⟩) = get_messages (.ok ⟨some []⟩) ∧
    get_messages (.error ⟨503⟩) = ([] : List MessageRef) := ⟨rfl, rfl⟩

/-- C3 (amended): when the provider message-list call fails, `get_messages`
logs and returns the empty list, the same value a successful zero-match
search returns; no error signal accompanies it. -/
theorem c3_failure_returns_plain_empty_list (e : HttpErr) :
    get_messages (.error e) = [] ∧
    get_messages (.error e) = get_messages (.ok ⟨some []⟩) := ⟨rfl, rfl⟩

/-- C5: in the bulk-download loop, a row is handed to `db.session.add`
exactly for those attachments whose `download_attachment` call reports
success, one row per success in iteration order, and `downloaded_count`
equals the number of rows added; no row is created on a failed write. -/
theorem c5_record_iff_download_success
    (decode : String → Option (List Nat)) (write : String → List Nat → Bool)
    (ctx : DownloadCtx) (i : Nat) (atts : List AttachmentInfo) :
    (process_attachments decode write ctx i atts).session_adds =
      (indexedFrom i atts).filterMap (fun pa =>
        if download_attachment decode write pa.2 (file_path ctx pa.1 pa.2)
        then some (mk_record ctx pa.1 pa.2) else none) ∧
    (process_attachments decode write ctx i atts).downloaded_count =
      (process_attachments decode write ctx i atts).session_adds.length := by
  induction atts generalizing i with
  | nil => exact ⟨rfl, rfl⟩
  | cons a rest ih =>
    obtain ⟨ih1, ih2⟩ := ih (i + 1)
    cases hdl : download_attachment decode write a (file_path ctx i a) with
    | true =>
      constructor
      · simp [process_attachments, indexedFrom, hdl, ih1]
      · simp [process_attachments, hdl, ih2, ih1]
    | false =>
      constructor
      · simp [process_attachments, indexedFrom, hdl, ih1]
      · simp [process_attachments, hdl, ih2, ih1]

/-- C6: `revoke_token` treats the provider status 400 exactly like 200
(returning `True` and clearing the held credential and service), returns
`False` without raising on an exception or any other status, leaves the
state untouched in those cases, and the credential is cleared only when
the provider confirmed invalidation with status 200 or 400. -/
theorem c6_revoke_token_semantics (st : GmailState) (c : OAuthCreds)
    (h1 : st.creds = some c) (h2 : c.refresh_token.isSome = true) :
    revoke_token st (.status 400) = revoke_token st (.status 200) ∧
    revoke_token st (.status 400) = (true, { st with creds := none, service := false }) ∧
    revoke_token st .exn = (false, st) ∧
    (∀ code : Nat, code ≠ 200 → code ≠ 400 → revoke_token st (.status code) = (false, st)) ∧
    (∀ resp, (revoke_token st resp).2.creds = none →
      resp = .status 200 ∨ resp = .status 400) := by
  obtain ⟨r, hr⟩ := Option.isSome_iff_exists.mp h2
  refine ⟨?_, ?_, ?_, ?_, ?_⟩
  · simp [revoke_token, h1, hr]
  · simp [revoke_token, h1, hr]
  · simp [revoke_token, h1, hr]
  · intro code hc1 hc2
    simp [revoke_token, h1, hr, hc1, hc2]
  · intro resp hclear
    cases resp with
    | status code =>
      by_cases hc1 : code = 200
      · exact Or.inl (by rw [hc1])
      · by_cases hc2 : code = 400
        · exact Or.inr (by rw [hc2])
        · rw [show revoke_token st (.status code) = (false, st) by
            simp [revoke_token, h1, hr, hc1, hc2]] at hclear
          rw [show (false, st).2 = st from rfl, h1] at hclear
          cases hclear
    | exn =>
      rw [show revoke_token st .exn = (false, st) by simp [revoke_token, h1, hr]] at hclear
      rw [show (false, st).2 = st from rfl, h1] at hclear
      cases hclear

/-- C6 witness: a concrete state holding a refresh token, revoked with the
provider answering 400, returns success and clears the credential. -/
theorem c6_revoke_token_semantics_witness :
    revoke_token ⟨some ⟨some "tok"⟩, true⟩ (.status 400) =
      (true, { creds := none, service := false }) :=
  (c6_revoke_token_semantics ⟨some ⟨some "tok"⟩, true⟩ ⟨some "tok"⟩ rfl rfl).2.1

/-- C7: the claim says the sanitizer output never exceeds 255 characters.
On the 302-character input `a.` followed by 300 `b`s, `os.path.splitext`
yields a 301-character extension, the Python slice `name[:255-len(ext)]`
becomes a negative-index slice of the one-character base name, and the
result keeps all 301 characters — longer than 255. -/
theorem c7_truncation_can_exceed_255 :
    (clean_filename (String.mk ('a' :: '.' :: List.replicate 300 'b'))).length = 301 ∧
    255 < (clean_filename (String.mk ('a' :: '.' :: List.replicate 300 'b'))).length := by
  exact ⟨by decide, by decide⟩

/-- C8: `build_search_query` emits its clauses in the fixed order
attachment flag, sender, quoted subject, after-date, before-date,
filename, joined by single spaces, and on sender `a@b.com` with the
attachment flag and nothing else returns exactly
`has:attachment from:a@b.com`. -/
theorem c8_build_search_query_clause_order :
    (∀ (sender subject : Option String) (da db : Option PyDateVal)
        (ha : Bool) (fc : Option String),
        build_search_query sender subject da db ha fc =
          String.intercalate " " (specQueryClauses sender subject da db ha fc)) ∧
    build_search_query (some "a@b.com") none none none true none =
      "has:attachment from:a@b.com" := by
  constructor
  · intro sender subject da db ha fc
    unfold build_search_query specQueryClauses
    cases truthyStr sender <;> cases truthyStr subject <;> cases truthyDate da <;>
      cases truthyDate db <;> cases ha <;> cases truthyStr fc <;> simp
  · rfl

/-- C10 (counterexample): sanitizing 254 `a`s, a space, and 10 `c`s
truncates to 255 characters ending in the space; a second application
strips that trailing space, so `clean_filename` is not idempotent. -/
theorem c10_sanitizer_not_idempotent :
    clean_filename (clean_filename
        (String.mk (List.replicate 254 'a' ++ ' ' :: List.replicate 10 'c'))) ≠
      clean_filename (String.mk (List.replicate 254 'a' ++ ' ' :: List.replicate 10 'c')) := by
  decide

/-- C10 (amended): `clean_filename` is idempotent on every input whose
sanitized output is at most 255 characters long and does not end in a
whitespace character (both can fail only through the length-limiting
branch, see C7 and the counterexample). -/
theorem c10_sanitizer_idempotent_on_bounded_outputs (s : String)
    (h1 : (clean_filename s).length ≤ 255)
    (h2 : lastNotWs (clean_filename s).data = true) :
    clean_filename (clean_filename s) = clean_filename s := by
  by_cases h0 : s.data = []
  · have e : clean_filename s = "untitled" := by
      unfold clean_filename
      rw [if_pos (by rw [h0]; rfl)]
    rw [e]
    decide
  · have e := clean_filename_eq s h0
    obtain ⟨p1, p2, p3, p4, p5⟩ := pass1_props s.data
    obtain ⟨q1, q2, q3, q4, q5⟩ := truncate255_props _ p1 p2 p3 p4 p5
    rw [e] at h1 h2 ⊢
    have hlen : (truncate255 (untitledOf (stripWs (collapseWs
        (replaceReserved s.data))))).length ≤ 255 := h1
    have hlast : lastNotWs (truncate255 (untitledOf (stripWs (collapseWs
        (replaceReserved s.data))))) = true := h2
    have hmkne : (String.mk (truncate255 (untitledOf (stripWs (collapseWs
        (replaceReserved s.data)))))).data ≠ [] := q5
    rw [clean_filename_eq _ hmkne]
    exact congrArg String.mk (pipeline_fix _ q1 q2 q3 q4 hlast q5 hlen)

/-- C10 witness: a concrete bounded input satisfying both hypotheses on
which the amended idempotence theorem applies. -/
theorem c10_sanitizer_idempotent_on_bounded_outputs_witness :
    (clean_filename "my report.pdf").length ≤ 255 ∧
    lastNotWs (clean_filename "my report.pdf").data = true ∧
    clean_filename (clean_filename "my report.pdf") = clean_filename "my report.pdf" :=
  ⟨by decide, by decide,
    c10_sanitizer_idempotent_on_bounded_outputs "my report.pdf" (by decide) (by decide)⟩

end GmailDL
